import Mathlib

/-!
# Verification of the Google-Maps scraper (`main.py`)

Shallow embedding of the scraper's core logic:

* Python `str.split(sep)` (non-empty separator), `str.strip()`, and `float()`
  on plain decimal literals, modelled over `List Char`;
* the `Business` record, its `__hash__` fingerprint and `BusinessList`
  deduplicating insertion;
* the scroll-and-collect loop of `main` (poll counts modelled as a function
  from poll index to item count, loop modelled with explicit fuel);
* `extract_coordinates_from_url`;
* the derivation of `category`/`location` from the search term;
* the per-listing try/except loop (listing outcomes modelled as data);
* the pre-browser argument/input resolution of `main` and its effective
  `total`;
* the dataframe/CSV export shape.

Python exceptions are modelled by `Option`/`Except` (`none` / `.error` where
the Python code raises).
-/

namespace GMaps

/-! ## Python string splitting, modelled from `str.split(sep)` -/

/-- `leadsWith p s` is true when the list `p` is an initial segment of `s`
(the prefix test used by the split scanner). -/
def leadsWith : List Char → List Char → Bool
  | [], _ => true
  | _ :: _, [] => false
  | c :: cs, d :: ds => c == d && leadsWith cs ds

/-- First occurrence of the separator: `findSplit sep s = some (p, q)` when
`s = p ++ sep ++ q` with `p` shortest possible, `none` when `sep` does not
occur in `s`. -/
def findSplit (sep : List Char) : List Char → Option (List Char × List Char)
  | [] => none
  | c :: rest =>
    if leadsWith sep (c :: rest) then some ([], (c :: rest).drop sep.length)
    else (findSplit sep rest).map (fun pq => (c :: pq.1, pq.2))

/-- Fuel-indexed splitter: repeatedly cut at the first occurrence of `sep`,
exactly as Python's `str.split` does for a non-empty separator. -/
def pySplitF (sep : List Char) : Nat → List Char → List (List Char)
  | 0, s => [s]
  | fuel + 1, s =>
    match findSplit sep s with
    | none => [s]
    | some (p, q) => p :: pySplitF sep fuel q

/-- Python `s.split(sep)` for a non-empty separator `sep`; `s.length + 1`
units of fuel always suffice because each cut consumes at least one
character of `s`. -/
def pySplit (sep s : List Char) : List (List Char) :=
  pySplitF sep (s.length + 1) s

/-- A separator whose occurrences in any string can never overlap: when it
occurs at two distinct positions, the earlier occurrence ends at or before
the later one starts.  Holds for every single character and for `"/@"`;
fails for self-overlapping separators such as `" in "`. -/
def OverlapFree (sep : List Char) : Prop :=
  ∀ (u x y x' y' : List Char), u = x ++ sep ++ y → u = x' ++ sep ++ y' →
    x.length < x'.length → x.length + sep.length ≤ x'.length

/-- Python `s.strip()`: drop whitespace from both ends. -/
def pyStrip (l : List Char) : List Char :=
  ((l.dropWhile Char.isWhitespace).reverse.dropWhile Char.isWhitespace).reverse

/-! ## Python `float()` on plain decimal literals

Scope of the model: an optional sign followed by decimal digits with at most
one decimal point (`"12"`, `"12.34"`, `"-56.78"`, `".5"`, `"1."`).  Exponent
notation, `inf`/`nan`, underscores and surrounding whitespace — which the
scraper's URLs never contain — are outside the model and map to `none`, as
does every string Python's `float()` rejects (`ValueError`). -/

/-- Numeric value of a digit character. -/
def digitVal (c : Char) : Nat := c.toNat - 48

/-- All characters are decimal digits. -/
def allDigits (l : List Char) : Bool := l.all (fun c => c.isDigit)

/-- Value of a digit string, most significant digit first. -/
def natOfDigits (l : List Char) : Nat := l.foldl (fun n c => n * 10 + digitVal c) 0

/-- Unsigned decimal literal: integer part, optional fraction part. -/
def parseUnsignedFloat (l : List Char) : Option ℚ :=
  match findSplit ['.'] l with
  | none => if l.isEmpty then none
            else if allDigits l then some (natOfDigits l) else none
  | some (ip, fp) =>
    if ip.isEmpty && fp.isEmpty then none
    else if allDigits ip && allDigits fp then
      some ((natOfDigits ip : ℚ) + (natOfDigits fp : ℚ) / (10 : ℚ) ^ fp.length)
    else none

/-- Python `float(s)` restricted to signed decimal literals (values as `ℚ`);
`none` models a raised `ValueError`. -/
def parseFloat (l : List Char) : Option ℚ :=
  match l with
  | '-' :: rest => (parseUnsignedFloat rest).map (fun q => -q)
  | '+' :: rest => parseUnsignedFloat rest
  | _ => parseUnsignedFloat l

/-! ## The `Business` record and its duplicate-detection fingerprint -/

/-- Values held by the dynamically typed fields of a `Business` row
(`None`, `str`, `int`, `float` — floats modelled as `ℚ`). -/
inductive PyVal
  | vnone
  | vstr (s : String)
  | vint (n : Int)
  | vrat (q : ℚ)
  deriving DecidableEq, Repr

/-- The `Business` dataclass of `main.py`.  Each text field is either a
string or Python `None` (`Option.none`); the numeric fields hold whatever
the scraper assigns (`int`, `float`, `""` or `None`). -/
structure Business where
  name : Option String := none
  address : Option String := none
  domain : Option String := none
  website : Option String := none
  phone_number : Option String := none
  category : Option String := none
  location : Option String := none
  reviews_count : PyVal := .vnone
  reviews_average : PyVal := .vnone
  latitude : PyVal := .vnone
  longitude : PyVal := .vnone
  deriving DecidableEq, Repr

/-- Python truthiness of an optional string: `None` and `""` are falsy. -/
def pyTruthy : Option String → Bool
  | none => false
  | some s => !(s == "")

/-- The `"field:value"` tag a contact field contributes to the hash tuple:
nothing when the field is falsy, `pre ++ value` otherwise
(`if self.domain: hash_fields.append(f"domain:{self.domain}")`). -/
def contactTag (pre : String) (f : Option String) : List String :=
  match f with
  | none => []
  | some s => if s = "" then [] else [pre ++ s]

/-- The tuple hashed by `Business.__hash__`: the name followed by the tags of
the non-empty contact fields.  The Python code hashes this tuple; duplicate
detection compares the tuples, so the tuple itself is the fingerprint
(Python's integer `hash` is modelled as injective on tuples). -/
def Business.fingerprint (b : Business) : Option String × List String :=
  (b.name,
    contactTag "domain:" b.domain ++ contactTag "website:" b.website ++
      contactTag "phone:" b.phone_number)

/-- The spec's matching rule for one contact field: both sides empty
(`None` or `""`), or equal and non-empty. -/
def fieldMatches (x y : Option String) : Prop :=
  (pyTruthy x = false ∧ pyTruthy y = false) ∨
    (∃ s, s ≠ "" ∧ x = some s ∧ y = some s)

/-! ## `BusinessList` and deduplicating insertion -/

/-- `BusinessList`: the ordered record list plus the `_seen_businesses`
fingerprint set (modelled as the list of fingerprints seen so far). -/
structure BusinessList where
  business_list : List Business := []
  seen : List (Option String × List String) := []
  deriving Repr

/-- `BusinessList.add_business`: append the record and remember its
fingerprint unless the fingerprint was already seen. -/
def BusinessList.add_business (bl : BusinessList) (b : Business) : BusinessList :=
  if b.fingerprint ∈ bl.seen then bl
  else { business_list := bl.business_list ++ [b], seen := b.fingerprint :: bl.seen }

/-- Run a whole sequence of `add_business` calls on an empty collection. -/
def runAdds (bs : List Business) : BusinessList :=
  bs.foldl BusinessList.add_business {}

/-- The `_seen_businesses` set holds exactly the fingerprints of the stored
records. -/
def SeenInv (bl : BusinessList) : Prop :=
  ∀ f, f ∈ bl.seen ↔ f ∈ bl.business_list.map Business.fingerprint

/-- Spec-side description of first-occurrence deduplication: keep each
element whose key has not appeared earlier in the list. -/
def keepFirstBy {α β : Type} [DecidableEq β] (f : α → β) : List α → List α
  | [] => []
  | a :: l => a :: (keepFirstBy f l).filter (fun x => f x ≠ f a)

/-! ## The scroll-and-collect loop of `main`

The live results surface is modelled by `counts : Nat → Nat`, the item count
the page reports at the i-th poll (the code's several `locator(...).count()`
calls inside one loop iteration all happen after the same settling wait and
are modelled as returning the same value).  The `while True` loop is run on
explicit fuel; `none` models a loop that has not terminated within the fuel. -/

/-- How the scroll loop exited: `target i n` — at poll `i` the count reached
the requested total and the first `n = min total count` listings were taken
(`all()[:total]`); `plateau i n` — at poll `i` the count equalled
`previously_counted` and all `n` current listings were taken. -/
inductive ScrollExit
  | target (i : Nat) (n : Nat)
  | plateau (i : Nat) (n : Nat)
  deriving DecidableEq, Repr

/-- Number of listing handles an exit carries. -/
def ScrollExit.handles : ScrollExit → Nat
  | .target _ n => n
  | .plateau _ n => n

/-- The scroll loop of `main` (lines 144–182): poll the count, stop with the
first `total` listings when the count reaches `total`, stop with all
listings when the count did not grow since the previous poll, otherwise
remember the count and scroll again. -/
def scrollLoop (counts : Nat → Nat) (total : Nat) :
    Nat → Nat → Nat → Option ScrollExit
  | 0, _, _ => none
  | fuel + 1, i, prev =>
    if total ≤ counts i then some (.target i (min total (counts i)))
    else if counts i = prev then some (.plateau i (counts i))
    else scrollLoop counts total fuel (i + 1) (counts i)

/-- A poll sequence never reports more than the `v` results actually
available on the surface. -/
def cappedBy (counts : Nat → Nat) (v : Nat) : Prop := ∀ i, counts i ≤ v

/-- From poll `k` on, every poll reports exactly `v`. -/
def stableFrom (counts : Nat → Nat) (k v : Nat) : Prop :=
  ∀ i, k ≤ i → counts i = v

/-- Strong stability: the first time two consecutive polls agree, the count
never changes again (no transient plateaus while content is still loading). -/
def plateauxFinal (counts : Nat → Nat) : Prop :=
  ∀ i, counts (i + 1) = counts i → ∀ j, i ≤ j → counts j = counts i

/-- The `previously_counted` bookkeeping the loop maintains: `0` before the
first poll, afterwards the count of the preceding poll. -/
def prevInv (counts : Nat → Nat) (j prev : Nat) : Prop :=
  (j = 0 ∧ prev = 0) ∨ (1 ≤ j ∧ prev = counts (j - 1))

/-! ## `extract_coordinates_from_url` -/

/-- `extract_coordinates_from_url` (lines 86–90):
`coordinates = url.split('/@')[-1].split('/')[0]` then
`float(coordinates.split(',')[0]), float(coordinates.split(',')[1])`.
`none` models an escaping `IndexError`/`ValueError`. -/
def extract_coordinates_from_url (url : String) : Option (ℚ × ℚ) :=
  let afterAt := (pySplit ['/', '@'] url.data).getLastD []
  let coordinates := (pySplit ['/'] afterAt).headD []
  let parts := pySplit [','] coordinates
  match parts.get? 0, parts.get? 1 with
  | some c0, some c1 =>
    match parseFloat c0, parseFloat c1 with
    | some la, some lo => some (la, lo)
    | _, _ => none
  | _, _ => none

/-- `url` contains the separator `"/@"` somewhere. -/
def hasAtSegment (url : String) : Bool :=
  (findSplit ['/', '@'] url.data).isSome

/-! ## Category and location derivation (lines 232–233) -/

/-- The literal separator `" in "`. -/
def sepIn : List Char := [' ', 'i', 'n', ' ']

/-- `business.category = search_for.split(' in ')[0].strip()`. -/
def deriveCategory (term : String) : String :=
  ⟨pyStrip ((pySplit sepIn term.data).headD [])⟩

/-- `business.location = search_for.split(' in ')[-1].strip()`. -/
def deriveLocation (term : String) : String :=
  ⟨pyStrip ((pySplit sepIn term.data).getLastD [])⟩

/-! ## The per-listing scraping loop (lines 187–238)

Processing one listing either produces a `Business` or raises; the outcome
of the click/extract sequence for each listing is modelled as data
(`Except errMsg record`).  The loop body is the `try`/`except` of `main`:
on success the record is added to the collection, on failure the error is
printed (logged) and iteration continues. -/

/-- One iteration of the scraping `for` loop: state is the collection plus
the log of printed error messages. -/
def scrapeStep (st : BusinessList × List String) (o : Except String Business) :
    BusinessList × List String :=
  match o with
  | .ok b => (st.1.add_business b, st.2)
  | .error e => (st.1, st.2 ++ [e])

/-- The whole scraping loop over a sequence of listing outcomes. -/
def scrapeLoop (bl : BusinessList) (outcomes : List (Except String Business)) :
    BusinessList × List String :=
  outcomes.foldl scrapeStep (bl, [])

/-- The error messages among a sequence of listing outcomes, in order. -/
def errLog (outcomes : List (Except String Business)) : List String :=
  outcomes.filterMap (fun o => match o with | .error e => some e | .ok _ => none)

/-! ## Pre-browser startup of `main` (lines 93–128) -/

/-- The error message printed when no searches are resolvable. -/
def noSearchMsg : String :=
  "Error occured: You must either pass the -s search argument, or add searches to input.txt"

/-- What `main` does before any browser resource is touched:
`earlyExit printed code` — the message was printed and `sys.exit()` raised
`SystemExit` with process exit status `code`, before `sync_playwright()` ran;
`launch searches total` — the browser is launched and the scrape proceeds
with the given search list and effective total. -/
inductive MainStart
  | earlyExit (printed : String) (code : Nat)
  | launch (searches : List String) (total : Int)
  deriving DecidableEq, Repr

/-- `if args.total: total = args.total else: total = 1_000_000` — the cap is
tested for truthiness (`0` and `None` are both falsy), not for presence. -/
def effectiveTotal (totalArg : Option Int) : Int :=
  match totalArg with
  | some t => if t ≠ 0 then t else 1000000
  | none => 1000000

/-- The search list `main` resolves: `[args.search]` when the argument is
truthy, otherwise the lines of `input.txt` (`none` = file missing). -/
def resolveSearches (searchArg : Option String) (inputLines : Option (List String)) :
    List String :=
  if pyTruthy searchArg then [searchArg.getD ""] else inputLines.getD []

/-- Lines 100–124 of `main`: resolve the searches and either exit early
(printing the error; `sys.exit()` with no argument terminates the process
with exit status 0) or reach the browser launch. -/
def mainStart (searchArg : Option String) (totalArg : Option Int)
    (inputLines : Option (List String)) : MainStart :=
  let searches := resolveSearches searchArg inputLines
  if !(pyTruthy searchArg) && searches.length == 0 then
    .earlyExit noSearchMsg 0
  else
    .launch searches (effectiveTotal totalArg)

/-! ## Export (lines 61–84)

`dataframe` feeds `asdict(business)` for each stored record, in order, to
`pandas.json_normalize`; the dataclass is flat, so each record yields one
row with one column per field.  `csvCell` models how `DataFrame.to_csv`
renders a cell by default: absent values (`None`/`NaN`) and empty strings
are written as the empty field, numbers as their decimal text. -/

/-- `asdict` applied to a `Business`: the ordered field/value pairs. -/
def asdict (b : Business) : List (String × PyVal) :=
  [("name", b.name.elim .vnone .vstr),
   ("address", b.address.elim .vnone .vstr),
   ("domain", b.domain.elim .vnone .vstr),
   ("website", b.website.elim .vnone .vstr),
   ("phone_number", b.phone_number.elim .vnone .vstr),
   ("category", b.category.elim .vnone .vstr),
   ("location", b.location.elim .vnone .vstr),
   ("reviews_count", b.reviews_count),
   ("reviews_average", b.reviews_average),
   ("latitude", b.latitude),
   ("longitude", b.longitude)]

/-- `BusinessList.dataframe`: one row per stored record, in stored order. -/
def BusinessList.dataframe (bl : BusinessList) : List (List (String × PyVal)) :=
  bl.business_list.map asdict

/-- Modelled from the spec: the delimited-text rendering of one cell by
`DataFrame.to_csv` — empty values are emitted as empty fields, never as the
literal text `"None"` or `"null"`. -/
def csvCell : PyVal → String
  | .vnone => ""
  | .vstr s => s
  | .vint n => toString n
  | .vrat q => toString q

/-- The exported CSV table: one row of rendered cells per stored record. -/
def csvTable (bl : BusinessList) : List (List String) :=
  bl.dataframe.map (fun row => row.map (fun kv => csvCell kv.2))

/-! ## Lemmas: strings and tag lists (for the fingerprint) -/

theorem string_eq_of_data {s t : String} (h : s.data = t.data) : s = t := by
  cases s; cases t; simp_all

theorem str_append_cancel {p s t : String} (h : p ++ s = p ++ t) : s = t := by
  apply string_eq_of_data
  have hd : p.data ++ s.data = p.data ++ t.data := by
    rw [← String.data_append p s, ← String.data_append p t, h]
  exact List.append_cancel_left hd

theorem headChar_append {p : String} {c : Char} (s : String)
    (h : p.data.head? = some c) : (p ++ s).data.head? = some c := by
  rw [String.data_append p s]
  cases hp : p.data with
  | nil => rw [hp] at h; simp at h
  | cons x xs =>
    rw [hp] at h
    simp only [List.head?_cons, Option.some.injEq] at h
    simp [h]

theorem tag_append_ne {p q : String} {cp cq : Char} (s t : String)
    (hp : p.data.head? = some cp) (hq : q.data.head? = some cq) (hne : cp ≠ cq) :
    p ++ s ≠ q ++ t := by
  intro h
  have h1 := headChar_append s hp
  have h2 := headChar_append t hq
  rw [h, h2] at h1
  exact hne (by simpa using h1.symm)

/-- Splitting an equality of concatenations when all elements of the first
chunks satisfy `P` and all elements of the second chunks do not. -/
theorem chunk_split (P : String → Prop) :
    ∀ (a1 a2 r1 r2 : List String), (∀ s ∈ a1, P s) → (∀ s ∈ a2, P s) →
      (∀ s ∈ r1, ¬ P s) → (∀ s ∈ r2, ¬ P s) →
      a1 ++ r1 = a2 ++ r2 → a1 = a2 ∧ r1 = r2 := by
  intro a1
  induction a1 with
  | nil =>
    intro a2 r1 r2 _ ha2 hr1 _ h
    cases a2 with
    | nil => exact ⟨rfl, h⟩
    | cons y u =>
      exfalso
      have hy : y ∈ r1 := by
        rw [List.nil_append] at h; rw [h]; exact List.mem_append_left _ (by simp)
      exact hr1 y hy (ha2 y (by simp))
  | cons x t ih =>
    intro a2 r1 r2 ha1 ha2 hr1 hr2 h
    cases a2 with
    | nil =>
      exfalso
      have hx : x ∈ r2 := by
        rw [List.nil_append] at h; rw [← h]; exact List.mem_append_left _ (by simp)
      exact hr2 x hx (ha1 x (by simp))
    | cons y u =>
      simp only [List.cons_append, List.cons.injEq] at h
      obtain ⟨hxy, hrest⟩ := h
      obtain ⟨h1, h2⟩ := ih u r1 r2 (fun s hs => ha1 s (List.mem_cons_of_mem _ hs))
        (fun s hs => ha2 s (List.mem_cons_of_mem _ hs)) hr1 hr2 hrest
      exact ⟨by rw [hxy, h1], h2⟩

theorem contactTag_head {pre : String} {c : Char} (f : Option String)
    (h : pre.data.head? = some c) :
    ∀ s ∈ contactTag pre f, s.data.head? = some c := by
  intro s hs
  cases f with
  | none => simp [contactTag] at hs
  | some v =>
    by_cases hv : v = "" <;> simp [contactTag, hv] at hs
    rw [hs]; exact headChar_append v h

theorem contactTag_eq_iff (pre : String) (x y : Option String) :
    contactTag pre x = contactTag pre y ↔ fieldMatches x y := by
  cases x with
  | none =>
    cases y with
    | none => simp [contactTag, fieldMatches, pyTruthy]
    | some t =>
      by_cases ht : t = "" <;>
        simp [contactTag, fieldMatches, pyTruthy, ht]
  | some s =>
    by_cases hs : s = ""
    · cases y with
      | none => simp [contactTag, fieldMatches, pyTruthy, hs]
      | some t =>
        by_cases ht : t = ""
        · simp [contactTag, fieldMatches, pyTruthy, hs, ht]
        · simp [contactTag, fieldMatches, pyTruthy, hs, ht, Ne.symm ht]
    · cases y with
      | none => simp [contactTag, fieldMatches, pyTruthy, hs]
      | some t =>
        by_cases ht : t = ""
        · simp [contactTag, fieldMatches, pyTruthy, hs, ht]
        · simp only [contactTag, if_neg hs, if_neg ht, List.cons.injEq, and_true]
          constructor
          · intro h
            have := str_append_cancel h
            exact Or.inr ⟨s, hs, rfl, by rw [this]⟩
          · rintro (⟨h1, _⟩ | ⟨v, _, hxv, hyv⟩)
            · simp [pyTruthy, hs] at h1
            · cases hxv; cases hyv; rfl

theorem fingerprint_eq_iff (a b : Business) :
    a.fingerprint = b.fingerprint ↔
      (a.name = b.name ∧ fieldMatches a.domain b.domain ∧
        fieldMatches a.website b.website ∧
        fieldMatches a.phone_number b.phone_number) := by
  unfold Business.fingerprint
  rw [Prod.mk.injEq]
  constructor
  · rintro ⟨hn, ht⟩
    rw [List.append_assoc, List.append_assoc] at ht
    refine ⟨hn, ?_⟩
    have hd : "domain:".data.head? = some 'd' := rfl
    have hw : "website:".data.head? = some 'w' := rfl
    have hp : "phone:".data.head? = some 'p' := rfl
    have notd : ∀ (f g : Option String),
        ∀ s ∈ contactTag "website:" f ++ contactTag "phone:" g,
          ¬ s.data.head? = some 'd' := by
      intro f g s hs hcon
      rcases List.mem_append.1 hs with h | h
      · have := contactTag_head f hw s h; rw [hcon] at this; simp at this
      · have := contactTag_head g hp s h; rw [hcon] at this; simp at this
    obtain ⟨h1, hrest⟩ := chunk_split (fun s => s.data.head? = some 'd') _ _ _ _
      (contactTag_head a.domain hd) (contactTag_head b.domain hd)
      (notd a.website a.phone_number) (notd b.website b.phone_number) ht
    have notw : ∀ (g : Option String), ∀ s ∈ contactTag "phone:" g,
        ¬ s.data.head? = some 'w' := by
      intro g s hs hcon
      have := contactTag_head g hp s hs; rw [hcon] at this; simp at this
    obtain ⟨h2, h3⟩ := chunk_split (fun s => s.data.head? = some 'w') _ _ _ _
      (contactTag_head a.website hw) (contactTag_head b.website hw)
      (notw a.phone_number) (notw b.phone_number) hrest
    exact ⟨(contactTag_eq_iff _ _ _).1 h1, (contactTag_eq_iff _ _ _).1 h2,
      (contactTag_eq_iff _ _ _).1 h3⟩
  · rintro ⟨hn, h1, h2, h3⟩
    rw [hn, (contactTag_eq_iff _ _ _).2 h1, (contactTag_eq_iff _ _ _).2 h2,
      (contactTag_eq_iff _ _ _).2 h3]
    exact ⟨rfl, rfl⟩

/-! ## Lemmas: the deduplicating collection -/

theorem seenInv_empty : SeenInv {} := by
  intro f; simp [SeenInv]

theorem seenInv_add {bl : BusinessList} (h : SeenInv bl) (b : Business) :
    SeenInv (bl.add_business b) := by
  unfold BusinessList.add_business
  by_cases hb : b.fingerprint ∈ bl.seen
  · simpa [hb] using h
  · intro f
    simp only [if_neg hb, List.mem_cons, List.map_append, List.map_cons,
      List.map_nil, List.mem_append]
    rw [h f]
    simp [or_comm]

theorem add_business_seen {bl : BusinessList} {b : Business}
    (hb : b.fingerprint ∈ bl.seen) : bl.add_business b = bl := by
  simp [BusinessList.add_business, hb]

theorem add_business_fresh {bl : BusinessList} {b : Business}
    (hb : b.fingerprint ∉ bl.seen) :
    (bl.add_business b).business_list = bl.business_list ++ [b] ∧
      (bl.add_business b).seen = b.fingerprint :: bl.seen := by
  simp [BusinessList.add_business, hb]

theorem filter_comm {α : Type} (p q : α → Bool) (l : List α) :
    (l.filter q).filter p = (l.filter p).filter q := by
  rw [List.filter_filter, List.filter_filter]
  congr 1; funext c; rw [Bool.and_comm]

theorem filter_idem {α : Type} (p : α → Bool) (l : List α) :
    (l.filter p).filter p = l.filter p := by
  rw [List.filter_filter]
  congr 1; funext c; rw [Bool.and_self]

theorem keepFirstBy_filter {α β : Type} [DecidableEq β] (f : α → β) (c : β) :
    ∀ l : List α,
      keepFirstBy f (l.filter (fun x => f x ≠ c)) =
        (keepFirstBy f l).filter (fun x => f x ≠ c) := by
  intro l
  induction l with
  | nil => simp [keepFirstBy]
  | cons a t ih =>
    by_cases ha : f a = c
    · rw [List.filter_cons_of_neg (by simp [ha]), ih, keepFirstBy,
        List.filter_cons_of_neg (by simp [ha]), ha, filter_idem]
    · rw [List.filter_cons_of_pos (by simp [ha])]
      rw [keepFirstBy, keepFirstBy]
      rw [List.filter_cons_of_pos (by simp [ha])]
      rw [ih, filter_comm]

/-- Core induction: running `add_business` over `l` appends the
first-occurrence deduplication of the not-yet-seen part of `l`. -/
theorem foldl_add_business :
    ∀ (l : List Business) (bl : BusinessList), SeenInv bl →
      (l.foldl BusinessList.add_business bl).business_list =
        bl.business_list ++
          keepFirstBy Business.fingerprint
            (l.filter (fun b => b.fingerprint ∉ bl.seen)) := by
  intro l
  induction l with
  | nil => intro bl _; simp [keepFirstBy]
  | cons b rest ih =>
    intro bl hinv
    by_cases hb : b.fingerprint ∈ bl.seen
    · rw [List.foldl_cons, add_business_seen hb,
        List.filter_cons_of_neg (by simp [hb]), ih bl hinv]
    · obtain ⟨hlist, hseen⟩ := add_business_fresh hb
      rw [List.foldl_cons, ih (bl.add_business b) (seenInv_add hinv b), hlist, hseen,
        List.filter_cons_of_pos (by simp [hb]), keepFirstBy, List.append_assoc]
      have hstep : rest.filter (fun x => x.fingerprint ∉ b.fingerprint :: bl.seen) =
          (rest.filter (fun x => x.fingerprint ∉ bl.seen)).filter
            (fun x => x.fingerprint ≠ b.fingerprint) := by
        rw [List.filter_filter]
        apply List.filter_congr
        intro x _
        simp only [List.mem_cons, decide_not]
        rcases Decidable.em (x.fingerprint = b.fingerprint) with h | h <;>
          rcases Decidable.em (x.fingerprint ∈ bl.seen) with h2 | h2 <;>
          simp [h, h2]
      rw [hstep, keepFirstBy_filter]
      simp

theorem runAdds_list (l : List Business) :
    (runAdds l).business_list = keepFirstBy Business.fingerprint l := by
  have h := foldl_add_business l {} seenInv_empty
  simpa [runAdds, List.filter_true] using h

theorem seenInv_runAdds (l : List Business) : SeenInv (runAdds l) := by
  unfold runAdds
  generalize hbl : ({} : BusinessList) = bl
  have : SeenInv bl := hbl ▸ seenInv_empty
  clear hbl
  induction l generalizing bl with
  | nil => simpa using this
  | cons b rest ih => exact ih _ (seenInv_add this b)

theorem mem_keepFirstBy {α β : Type} [DecidableEq β] (f : α → β) :
    ∀ (l : List α) (x : α), x ∈ keepFirstBy f l → x ∈ l := by
  intro l
  induction l with
  | nil => simp [keepFirstBy]
  | cons a t ih =>
    intro x hx
    rw [keepFirstBy] at hx
    rcases List.mem_cons.1 hx with h | h
    · simp [h]
    · exact List.mem_cons_of_mem _ (ih x (List.mem_of_mem_filter h))

theorem keepFirstBy_pairwise {α β : Type} [DecidableEq β] (f : α → β) :
    ∀ l : List α, (keepFirstBy f l).Pairwise (fun x y => f x ≠ f y) := by
  intro l
  induction l with
  | nil => simp [keepFirstBy]
  | cons a t ih =>
    rw [keepFirstBy]
    refine List.Pairwise.cons ?_ (ih.sublist (List.filter_sublist _))
    intro y hy
    have := List.of_mem_filter hy
    simp only [decide_not, Bool.not_eq_eq_eq_not, Bool.not_true,
      decide_eq_false_iff_not] at this
    exact fun h => this h.symm

/-! ## Lemmas: the scroll loop -/

/-- With polls capped by `v < N` and stable at `v` from poll `k`, the loop
always exits through the no-growth branch within `k + 1` polls. -/
theorem scroll_plateau_terminates (counts : Nat → Nat) (v k N : Nat)
    (hc : cappedBy counts v) (hs : stableFrom counts k v) (hvN : v < N) :
    ∀ d j prev, k + 1 - j ≤ d → j ≤ k + 1 → (j = k + 1 → prev = v) →
      ∃ i n, j ≤ i ∧ i ≤ k + 1 ∧ n ≤ v ∧
        scrollLoop counts N (d + 1) j prev = some (.plateau i n) := by
  intro d
  induction d with
  | zero =>
    intro j prev hd hj hpv
    have hj' : j = k + 1 := le_antisymm hj (by omega)
    have hcj : counts j = v := by rw [hj']; exact hs (k + 1) (by omega)
    refine ⟨j, v, le_refl _, hj, le_refl _, ?_⟩
    rw [scrollLoop, if_neg (by omega), if_pos (by rw [hcj, hpv hj']), hcj]
  | succ d ih =>
    intro j prev hd hj hpv
    by_cases hcp : counts j = prev
    · exact ⟨j, counts j, le_refl _, hj, hc j, by
        rw [scrollLoop, if_neg (by have := hc j; omega), if_pos hcp]⟩
    · have hjk : j ≤ k := by
        rcases Nat.lt_or_ge j (k + 1) with h | h
        · omega
        · exfalso
          have hj' : j = k + 1 := by omega
          exact hcp (by rw [hs j (by omega), hpv hj'])
      obtain ⟨i, n, hi1, hi2, hn, heq⟩ := ih (j + 1) (counts j) (by omega) (by omega)
        (fun h => by rw [show j = k from by omega]; exact hs k (le_refl k))
      refine ⟨i, n, by omega, hi2, hn, ?_⟩
      rw [scrollLoop, if_neg (by have := hc j; omega), if_neg hcp]
      exact heq

/-- With polls capped by `v`, stable at `v` from poll `k`, plateaus final
and a zero first poll only when nothing is available, a target `N ≤ v` is
reached: the loop exits through the target branch with exactly `N` handles. -/
theorem scroll_target_exact (counts : Nat → Nat) (v k N : Nat)
    (_hc : cappedBy counts v) (hs : stableFrom counts k v)
    (hp : plateauxFinal counts) (h0 : counts 0 = 0 → v = 0) (hNv : N ≤ v) :
    ∀ d j prev, k - j ≤ d → j ≤ k → prevInv counts j prev →
      ∃ i, i ≤ k ∧ scrollLoop counts N (d + 1) j prev = some (.target i N) := by
  intro d
  induction d with
  | zero =>
    intro j prev hd hj _
    have hj' : j = k := by omega
    have hck : counts j = v := by rw [hj']; exact hs k (le_refl k)
    refine ⟨j, by omega, ?_⟩
    rw [scrollLoop, if_pos (by omega), hck, Nat.min_eq_left hNv]
  | succ d ih =>
    intro j prev hd hj hinv
    by_cases hN : N ≤ counts j
    · exact ⟨j, hj, by rw [scrollLoop, if_pos hN, Nat.min_eq_left hN]⟩
    · by_cases hcp : counts j = prev
      · exfalso
        rcases hinv with ⟨hj0, hprev⟩ | ⟨hj1, hprev⟩
        · subst hj0
          have : v = 0 := h0 (by omega)
          omega
        · have hj' : j - 1 + 1 = j := by omega
          have hplat := hp (j - 1) (by rw [hj']; omega)
          have hval : counts (max k j) = counts (j - 1) :=
            hplat (max k j) (by omega)
          have hstab : counts (max k j) = v := hs _ (le_max_left _ _)
          omega
      · have hjk : j < k := by
          rcases Nat.lt_or_ge j k with h | h
          · exact h
          · exfalso
            have : j = k := by omega
            subst this
            rw [hs j (le_refl j)] at hN
            omega
        obtain ⟨i, hi, heq⟩ := ih (j + 1) (counts j) (by omega) (by omega)
          (Or.inr ⟨by omega, by simp⟩)
        refine ⟨i, hi, ?_⟩
        rw [scrollLoop, if_neg hN, if_neg hcp]
        exact heq

/-- As `scroll_target_exact`, but for `v < N`: the loop exits through the
no-growth branch with exactly the `v` available handles. -/
theorem scroll_plateau_exact (counts : Nat → Nat) (v k N : Nat)
    (hc : cappedBy counts v) (hs : stableFrom counts k v)
    (hp : plateauxFinal counts) (h0 : counts 0 = 0 → v = 0) (hvN : v < N) :
    ∀ d j prev, k + 1 - j ≤ d → j ≤ k + 1 → prevInv counts j prev →
      ∃ i, i ≤ k + 1 ∧ scrollLoop counts N (d + 1) j prev = some (.plateau i v) := by
  intro d
  induction d with
  | zero =>
    intro j prev hd hj hinv
    have hj' : j = k + 1 := by omega
    have hcj : counts j = v := by rw [hj']; exact hs (k + 1) (by omega)
    rcases hinv with ⟨hj0, _⟩ | ⟨_, hprev⟩
    · omega
    · have hpk : prev = v := by
        rw [hprev, hj']
        simp only [Nat.add_sub_cancel]
        exact hs k (by omega)
      refine ⟨j, hj, ?_⟩
      rw [scrollLoop, if_neg (by omega), if_pos (by omega), hcj]
  | succ d ih =>
    intro j prev hd hj hinv
    by_cases hcp : counts j = prev
    · rcases hinv with ⟨hj0, hprev⟩ | ⟨hj1, hprev⟩
      · subst hj0
        have hv0 : v = 0 := h0 (by omega)
        refine ⟨0, by omega, ?_⟩
        rw [scrollLoop, if_neg (by have := hc 0; omega), if_pos hcp]
        have : counts 0 = v := by have := hc 0; omega
        rw [this]
      · have hj' : j - 1 + 1 = j := by omega
        have hplat := hp (j - 1) (by rw [hj']; omega)
        have hval : counts (max k j) = counts (j - 1) := hplat (max k j) (by omega)
        have hstab : counts (max k j) = v := hs _ (le_max_left _ _)
        have hcv : counts j = v := by omega
        refine ⟨j, by omega, ?_⟩
        rw [scrollLoop, if_neg (by omega), if_pos hcp, hcv]
    · have hjk : j ≤ k := by
        rcases Nat.lt_or_ge j (k + 1) with h | h
        · omega
        · exfalso
          have hj' : j = k + 1 := by omega
          rcases hinv with ⟨hj0, _⟩ | ⟨_, hprev⟩
          · omega
          · apply hcp
            rw [hs j (by omega), hprev, hj']
            simp only [Nat.add_sub_cancel]
            exact (hs k (le_refl k)).symm
      obtain ⟨i, hi, heq⟩ := ih (j + 1) (counts j) (by omega) (by omega)
        (Or.inr ⟨by omega, by simp⟩)
      refine ⟨i, hi, ?_⟩
      rw [scrollLoop, if_neg (by have := hc j; omega), if_neg hcp]
      exact heq

/-! ## Lemmas: the splitter -/

theorem leadsWith_iff : ∀ (p s : List Char), leadsWith p s = true ↔ ∃ t, s = p ++ t := by
  intro p
  induction p with
  | nil => intro s; simp [leadsWith]
  | cons c cs ih =>
    intro s
    cases s with
    | nil =>
      simp only [leadsWith, Bool.false_eq_true, false_iff]
      rintro ⟨t, ht⟩
      simp at ht
    | cons d ds =>
      simp only [leadsWith, Bool.and_eq_true, beq_iff_eq, ih ds]
      constructor
      · rintro ⟨hcd, t, ht⟩
        exact ⟨t, by rw [hcd, ht]; rfl⟩
      · rintro ⟨t, ht⟩
        simp only [List.cons_append, List.cons.injEq] at ht
        exact ⟨ht.1.symm, t, ht.2⟩

theorem findSplit_sound (sep : List Char) :
    ∀ s p q, findSplit sep s = some (p, q) → s = p ++ sep ++ q := by
  intro s
  induction s with
  | nil => intro p q h; simp [findSplit] at h
  | cons c rest ih =>
    intro p q h
    rw [findSplit] at h
    by_cases hl : leadsWith sep (c :: rest) = true
    · rw [if_pos hl] at h
      obtain ⟨t, ht⟩ := (leadsWith_iff sep (c :: rest)).1 hl
      simp only [Option.some.injEq, Prod.mk.injEq] at h
      obtain ⟨hp, hq⟩ := h
      have hq' : q = t := by rw [← hq, ht, List.drop_left]
      rw [← hp, hq', List.nil_append]
      exact ht
    · rw [if_neg hl] at h
      cases hfind : findSplit sep rest with
      | none => simp [hfind] at h
      | some pq =>
        simp only [hfind, Option.map_some', Option.some.injEq, Prod.mk.injEq] at h
        obtain ⟨hp, hq⟩ := h
        have hrest := ih pq.1 pq.2 (by rw [hfind])
        rw [← hp, ← hq]
        rw [List.cons_append, List.cons_append]
        rw [← hrest]

theorem findSplit_minimal (sep : List Char) :
    ∀ s p q, findSplit sep s = some (p, q) →
      ∀ x y, s = x ++ sep ++ y → p.length ≤ x.length := by
  intro s
  induction s with
  | nil => intro p q h; simp [findSplit] at h
  | cons c rest ih =>
    intro p q h x y hxy
    rw [findSplit] at h
    by_cases hl : leadsWith sep (c :: rest) = true
    · rw [if_pos hl] at h
      simp only [Option.some.injEq, Prod.mk.injEq] at h
      rw [← h.1]
      simp
    · rw [if_neg hl] at h
      cases x with
      | nil =>
        exfalso
        apply hl
        rw [leadsWith_iff]
        exact ⟨y, by simpa using hxy⟩
      | cons c2 x2 =>
        cases hfind : findSplit sep rest with
        | none => simp [hfind] at h
        | some pq =>
          simp only [hfind, Option.map_some', Option.some.injEq, Prod.mk.injEq] at h
          simp only [List.cons_append, List.cons.injEq] at hxy
          have := ih pq.1 pq.2 (by rw [hfind]) x2 y hxy.2
          rw [← h.1]
          simpa using this

theorem findSplit_none_no_occ (sep : List Char) (hsep : sep ≠ []) :
    ∀ s, findSplit sep s = none → ∀ x y, s ≠ x ++ sep ++ y := by
  intro s
  induction s with
  | nil =>
    intro _ x y hxy
    have : sep.length = 0 := by
      have := congrArg List.length hxy
      simp at this
      omega
    exact hsep (List.length_eq_zero.1 this)
  | cons c rest ih =>
    intro h x y hxy
    rw [findSplit] at h
    by_cases hl : leadsWith sep (c :: rest) = true
    · rw [if_pos hl] at h; simp at h
    · rw [if_neg hl] at h
      cases x with
      | nil =>
        apply hl
        rw [leadsWith_iff]
        exact ⟨y, by simpa using hxy⟩
      | cons c2 x2 =>
        cases hfind : findSplit sep rest with
        | none =>
          simp only [List.cons_append, List.cons.injEq] at hxy
          exact ih hfind x2 y hxy.2
        | some pq => rw [hfind] at h; simp at h

theorem findSplit_exists (sep : List Char) (hsep : sep ≠ []) {s x y : List Char}
    (h : s = x ++ sep ++ y) : ∃ pq, findSplit sep s = some pq := by
  cases hfind : findSplit sep s with
  | none => exact absurd h (findSplit_none_no_occ sep hsep s hfind x y)
  | some pq => exact ⟨pq, rfl⟩

theorem findSplit_len (sep : List Char) (hsep : sep ≠ []) :
    ∀ {s p q}, findSplit sep s = some (p, q) → q.length < s.length := by
  intro s p q h
  have hs := findSplit_sound sep s p q h
  have hlen : s.length = p.length + (sep.length + q.length) := by
    rw [hs]; simp
  have hsl : 1 ≤ sep.length := by
    cases sep with
    | nil => exact absurd rfl hsep
    | cons _ _ => simp
  omega

theorem findSplit_exact (sep : List Char) (hsep : sep ≠ []) {s a b : List Char}
    (h : s = a ++ sep ++ b)
    (hmin : ∀ x y, s = x ++ sep ++ y → a.length ≤ x.length) :
    findSplit sep s = some (a, b) := by
  obtain ⟨⟨p, q⟩, hfind⟩ := findSplit_exists sep hsep h
  have hsound := findSplit_sound sep s p q hfind
  have h1 : p.length ≤ a.length := findSplit_minimal sep s p q hfind a b h
  have h2 : a.length ≤ p.length := hmin p q hsound
  have hlen : p.length = a.length := le_antisymm h1 h2
  have hpa : p = a := by
    have t1 : (p ++ (sep ++ q)).take p.length = p := List.take_left p (sep ++ q)
    have t2 : (a ++ (sep ++ b)).take a.length = a := List.take_left a (sep ++ b)
    rw [← t1, ← t2, ← List.append_assoc, ← hsound, ← List.append_assoc, ← h, hlen]
  have hqb : q = b := by
    have h2 : p ++ sep ++ q = p ++ sep ++ b := by rw [← hsound, h, hpa]
    rw [List.append_assoc, List.append_assoc] at h2
    exact List.append_cancel_left (List.append_cancel_left h2)
  rw [hfind, hpa, hqb]

theorem overlapFree_single (c : Char) : OverlapFree [c] := by
  intro u x y x' y' _ _ hlt
  simpa using hlt

theorem get_append_at (l1 l2 : List Char) : (l1 ++ l2).get? l1.length = l2.get? 0 := by
  simp [List.get?_eq_getElem?, List.getElem?_append_right]

theorem overlapFree_slashAt : OverlapFree ['/', '@'] := by
  intro u x y x' y' h1 h2 hlt
  by_contra hcon
  have hx' : x'.length = x.length + 1 := by simp at hcon ⊢; omega
  have g1 : u.get? (x.length + 1) = some '@' := by
    rw [h1]
    have : x ++ ['/', '@'] ++ y = (x ++ ['/']) ++ ('@' :: y) := by simp
    rw [this]
    have hlen : (x ++ ['/']).length = x.length + 1 := by simp
    rw [← hlen, get_append_at]
    rfl
  have g2 : u.get? (x.length + 1) = some '/' := by
    rw [h2, ← hx', List.append_assoc, get_append_at]
    rfl
  rw [g1] at g2
  simp at g2

theorem pySplitF_succ_none {sep s : List Char} (fuel : Nat)
    (h : findSplit sep s = none) : pySplitF sep (fuel + 1) s = [s] := by
  simp [pySplitF, h]

theorem pySplitF_succ_some {sep s p q : List Char} (fuel : Nat)
    (h : findSplit sep s = some (p, q)) :
    pySplitF sep (fuel + 1) s = p :: pySplitF sep fuel q := by
  simp [pySplitF, h]

theorem pySplitF_ne_nil (sep : List Char) : ∀ fuel s, pySplitF sep fuel s ≠ [] := by
  intro fuel s
  cases fuel with
  | zero => simp [pySplitF]
  | succ n =>
    cases hfind : findSplit sep s with
    | none => rw [pySplitF_succ_none n hfind]; simp
    | some pq => rw [pySplitF_succ_some n (by rw [hfind])]; simp

theorem pySplitF_stable (sep : List Char) (hsep : sep ≠ []) :
    ∀ f1 s f2, s.length < f1 → s.length < f2 →
      pySplitF sep f1 s = pySplitF sep f2 s := by
  intro f1
  induction f1 with
  | zero => intro s f2 h1 _; omega
  | succ f ih =>
    intro s f2 h1 h2
    cases f2 with
    | zero => omega
    | succ f2' =>
      cases hfind : findSplit sep s with
      | none => rw [pySplitF_succ_none f hfind, pySplitF_succ_none f2' hfind]
      | some pq =>
        obtain ⟨p, q⟩ := pq
        have hq : q.length < s.length := findSplit_len sep hsep hfind
        rw [pySplitF_succ_some f hfind, pySplitF_succ_some f2' hfind,
          ih q f2' (by omega) (by omega)]

theorem pySplit_of_none {sep s : List Char} (h : findSplit sep s = none) :
    pySplit sep s = [s] := by
  rw [pySplit, pySplitF_succ_none s.length h]

theorem pySplit_cons (sep : List Char) (hsep : sep ≠ []) {s p q : List Char}
    (h : findSplit sep s = some (p, q)) : pySplit sep s = p :: pySplit sep q := by
  rw [pySplit, pySplitF_succ_some s.length h]
  congr 1
  exact pySplitF_stable sep hsep s.length q (q.length + 1)
    (findSplit_len sep hsep h) (by omega)

theorem pySplit_ne_nil (sep s : List Char) : pySplit sep s ≠ [] :=
  pySplitF_ne_nil sep (s.length + 1) s

theorem getLastD_of_ne_nil {α : Type} {l : List α} (h : l ≠ []) (d1 d2 : α) :
    l.getLastD d1 = l.getLastD d2 := by
  rw [List.getLastD_eq_getLast?, List.getLastD_eq_getLast?]
  cases hl : l.getLast? with
  | none => exact absurd (List.getLast?_eq_none_iff.1 hl) h
  | some a => rfl

/-- `split(sep)[-1]` on `a ++ sep ++ b` is `b` whenever `sep` is
overlap-free and does not occur in `b` — the piece after the last
occurrence of the separator. -/
theorem pySplit_getLast (sep : List Char) (hsep : sep ≠ []) (hov : OverlapFree sep) :
    ∀ n s a b, s.length ≤ n → s = a ++ sep ++ b → findSplit sep b = none →
      (pySplit sep s).getLastD [] = b := by
  intro n
  induction n with
  | zero =>
    intro s a b hn hs _
    exfalso
    have := congrArg List.length hs
    simp at this
    have hsl : 1 ≤ sep.length := by
      cases sep with
      | nil => exact absurd rfl hsep
      | cons _ _ => simp
    omega
  | succ n ih =>
    intro s a b hn hs hb
    obtain ⟨⟨p, q⟩, hfind⟩ := findSplit_exists sep hsep hs
    have hsound := findSplit_sound sep s p q hfind
    have hpa : p.length ≤ a.length := findSplit_minimal sep s p q hfind a b hs
    rcases eq_or_lt_of_le hpa with heq | hlt
    · have hp : p = a := by
        have t1 : (p ++ (sep ++ q)).take p.length = p := List.take_left p (sep ++ q)
        have t2 : (a ++ (sep ++ b)).take a.length = a := List.take_left a (sep ++ b)
        rw [← t1, ← t2, ← List.append_assoc, ← hsound, ← List.append_assoc, ← hs, heq]
      have hq : q = b := by
        have h2 : p ++ sep ++ q = p ++ sep ++ b := by rw [← hsound, hs, hp]
        rw [List.append_assoc, List.append_assoc] at h2
        exact List.append_cancel_left (List.append_cancel_left h2)
      rw [pySplit_cons sep hsep hfind, hq, pySplit_of_none hb]
      rfl
    · have hfar : p.length + sep.length ≤ a.length := hov s p q a b hsound hs hlt
      have hq : q = a.drop (p.length + sep.length) ++ sep ++ b := by
        have d1 : (p ++ sep ++ q).drop (p.length + sep.length) = q := by
          rw [List.append_assoc]
          have : p.length + sep.length = (p ++ sep).length := by simp
          rw [this, ← List.append_assoc, List.drop_left]
        have d2 : (a ++ sep ++ b).drop (p.length + sep.length) =
            a.drop (p.length + sep.length) ++ sep ++ b := by
          rw [List.append_assoc, List.drop_append_of_le_length hfar, ← List.append_assoc]
        rw [← d1, ← hsound, hs, d2]
      have hqlen : q.length < s.length := findSplit_len sep hsep hfind
      have := ih q (a.drop (p.length + sep.length)) b (by omega) hq hb
      rw [pySplit_cons sep hsep hfind]
      have hne := pySplit_ne_nil sep q
      cases hl : pySplit sep q with
      | nil => exact absurd hl hne
      | cons z zs =>
        rw [hl] at this
        simpa using this

/-- First occurrence position for a single-character separator not occurring
in the prefix `a`. -/
theorem single_char_min {c : Char} {a b : List Char} (hc : c ∉ a) :
    ∀ x y, a ++ [c] ++ b = x ++ [c] ++ y → a.length ≤ x.length := by
  intro x y hxy
  by_contra hcon
  have hlt : x.length < a.length := by omega
  have g1 : (x ++ [c] ++ y).get? x.length = some c := by
    rw [List.append_assoc, get_append_at]
    rfl
  have g2 : (a ++ [c] ++ b).get? x.length = a.get? x.length := by
    rw [List.append_assoc]
    simp [List.get?_eq_getElem?, List.getElem?_append_left hlt]
  rw [hxy, g1] at g2
  have : c ∈ a := by
    rw [List.get?_eq_getElem?] at g2
    exact List.getElem?_mem g2.symm
  exact hc this

/-- Splitting on a single character at its first occurrence. -/
theorem pySplit_single_cons {c : Char} {a b : List Char} (hc : c ∉ a) :
    pySplit [c] (a ++ [c] ++ b) = a :: pySplit [c] b := by
  have h := @findSplit_exact [c] (by simp) (a ++ [c] ++ b) a b rfl
    (fun x y hxy => single_char_min hc x y hxy)
  exact pySplit_cons [c] (by simp) h

/-! ## Lemmas: the per-listing loop -/

theorem scrape_fst_log :
    ∀ (l : List (Except String Business)) (bl : BusinessList) (g1 g2 : List String),
      (l.foldl scrapeStep (bl, g1)).1 = (l.foldl scrapeStep (bl, g2)).1 := by
  intro l
  induction l with
  | nil => intro bl g1 g2; rfl
  | cons o rest ih =>
    intro bl g1 g2
    cases o with
    | ok b => exact ih (bl.add_business b) g1 g2
    | error e => exact ih bl (g1 ++ [e]) (g2 ++ [e])

theorem scrape_snd :
    ∀ (l : List (Except String Business)) (bl : BusinessList) (g : List String),
      (l.foldl scrapeStep (bl, g)).2 = g ++ errLog l := by
  intro l
  induction l with
  | nil => intro bl g; simp [errLog]
  | cons o rest ih =>
    intro bl g
    cases o with
    | ok b =>
      rw [List.foldl_cons]
      rw [show scrapeStep (bl, g) (Except.ok b) = (bl.add_business b, g) from rfl]
      rw [ih (bl.add_business b) g]
      simp [errLog]
    | error e =>
      rw [List.foldl_cons]
      rw [show scrapeStep (bl, g) (Except.error e) = (bl, g ++ [e]) from rfl]
      rw [ih bl (g ++ [e])]
      simp [errLog]

theorem scrape_fst_skip_error :
    ∀ (pre : List (Except String Business)) (bl : BusinessList) (g : List String)
      (e : String) (suf : List (Except String Business)),
      ((pre ++ .error e :: suf).foldl scrapeStep (bl, g)).1 =
        ((pre ++ suf).foldl scrapeStep (bl, g)).1 := by
  intro pre
  induction pre with
  | nil =>
    intro bl g e suf
    rw [List.nil_append, List.nil_append, List.foldl_cons]
    rw [show scrapeStep (bl, g) (Except.error e) = (bl, g ++ [e]) from rfl]
    exact scrape_fst_log suf bl (g ++ [e]) g
  | cons o rest ih =>
    intro bl g e suf
    rw [List.cons_append, List.cons_append, List.foldl_cons, List.foldl_cons]
    cases o with
    | ok b => exact ih (bl.add_business b) g e suf
    | error e2 => exact ih bl (g ++ [e2]) e suf

theorem errLog_append (l1 l2 : List (Except String Business)) :
    errLog (l1 ++ l2) = errLog l1 ++ errLog l2 := by
  simp [errLog]

theorem findSplit_single_none {c : Char} {s : List Char} (hc : c ∉ s) :
    findSplit [c] s = none := by
  cases h : findSplit [c] s with
  | none => rfl
  | some pq =>
    exfalso
    have hs := findSplit_sound [c] s pq.1 pq.2 (by rw [h])
    apply hc
    rw [hs]
    simp

/-! ## Claim theorems -/

/-- C1: the fingerprint used for duplicate detection identifies two records
as the same entity iff their names are equal and, for each of
domain/website/phone, either both are empty (`None`/`""`) or both hold the
same non-empty value; in particular equal names with all three contact
fields empty collide, while equal names with different non-empty domains do
not. -/
theorem C1_fingerprint_same_entity :
    (∀ a b : Business, a.fingerprint = b.fingerprint ↔
      (a.name = b.name ∧ fieldMatches a.domain b.domain ∧
        fieldMatches a.website b.website ∧
        fieldMatches a.phone_number b.phone_number)) ∧
    Business.fingerprint { name := some "X" } =
      Business.fingerprint
        { name := some "X", domain := some "", website := some "",
          phone_number := some "" } ∧
    Business.fingerprint { name := some "X", domain := some "a.com" } ≠
      Business.fingerprint { name := some "X", domain := some "b.com" } :=
  ⟨fingerprint_eq_iff, by decide, by decide⟩

/-- C2: in every collection reachable by `add_business` calls no two stored
records share a fingerprint; inserting an already-seen fingerprint leaves
the collection unchanged, inserting a fresh one appends exactly that record,
and the stored sequence is exactly the input in order of first occurrence of
each fingerprint. -/
theorem C2_add_business_dedup :
    ∀ l : List Business,
      (runAdds l).business_list.Pairwise
        (fun x y => x.fingerprint ≠ y.fingerprint) ∧
      (runAdds l).business_list = keepFirstBy Business.fingerprint l ∧
      (∀ b : Business,
        b.fingerprint ∈ (runAdds l).business_list.map Business.fingerprint →
          (runAdds l).add_business b = runAdds l) ∧
      (∀ b : Business,
        b.fingerprint ∉ (runAdds l).business_list.map Business.fingerprint →
          ((runAdds l).add_business b).business_list =
            (runAdds l).business_list ++ [b]) := by
  intro l
  have hinv := seenInv_runAdds l
  have hlist := runAdds_list l
  refine ⟨?_, hlist, ?_, ?_⟩
  · rw [hlist]; exact keepFirstBy_pairwise Business.fingerprint l
  · intro b hb
    exact add_business_seen ((hinv b.fingerprint).2 hb)
  · intro b hb
    exact (add_business_fresh (fun hmem => hb ((hinv _).1 hmem))).1

/-- Witness for C2: a duplicate of the first record of a concrete two-record
collection is rejected, leaving the collection unchanged. -/
theorem C2_add_business_dedup_witness :
    ({ name := some "A" } : Business).fingerprint ∈
      ((runAdds [{ name := some "A" }, { name := some "B" }]).business_list.map
        Business.fingerprint) ∧
    (runAdds [{ name := some "A" }, { name := some "B" }]).add_business
        { name := some "A" } =
      runAdds [{ name := some "A" }, { name := some "B" }] :=
  ⟨by decide,
    (C2_add_business_dedup [{ name := some "A" }, { name := some "B" }]).2.2.1
      { name := some "A" } (by decide)⟩

/-- C4: when the target `N` strictly exceeds the `v` results available (all
polls report at most `v` and from some poll `k` on exactly `v`), the scroll
loop terminates within `k + 2` polls through the no-growth branch, with a
final count below `N`, rather than looping forever. -/
theorem C4_scroll_terminates :
    ∀ (counts : Nat → Nat) (v k N : Nat),
      cappedBy counts v → stableFrom counts k v → v < N →
      ∃ i n, i ≤ k + 1 ∧ n ≤ v ∧ n < N ∧
        scrollLoop counts N (k + 2) 0 0 = some (.plateau i n) := by
  intro counts v k N hc hs hvN
  obtain ⟨i, n, _, hi, hn, heq⟩ := scroll_plateau_terminates counts v k N hc hs hvN
    (k + 1) 0 0 (by omega) (by omega) (by omega)
  exact ⟨i, n, hi, hn, by omega, heq⟩

/-- Witness for C4: a surface with 3 results polled forever against a target
of 10 exits through the no-growth branch. -/
theorem C4_scroll_terminates_witness :
    cappedBy (fun _ => 3) 3 ∧ stableFrom (fun _ => 3) 0 3 ∧
    (∃ i n, i ≤ 0 + 1 ∧ n ≤ 3 ∧ n < 10 ∧
      scrollLoop (fun _ => 3) 10 (0 + 2) 0 0 = some (.plateau i n)) :=
  ⟨fun _ => le_refl 3, fun _ _ => rfl,
    C4_scroll_terminates (fun _ => 3) 3 0 10 (fun _ => le_refl 3)
      (fun _ _ => rfl) (by omega)⟩

/-- C7: a listing whose click/extract processing raises is caught at the
per-listing level: its error is logged exactly once in place, it contributes
no record (the final collection equals the one obtained with the listing
removed), and all remaining listings are still processed. -/
theorem C7_listing_failure_isolated :
    ∀ (pre suf : List (Except String Business)) (e : String) (bl : BusinessList),
      (scrapeLoop bl (pre ++ .error e :: suf)).1 = (scrapeLoop bl (pre ++ suf)).1 ∧
      (scrapeLoop bl (pre ++ .error e :: suf)).2 =
        errLog pre ++ e :: errLog suf ∧
      (scrapeLoop bl (pre ++ suf)).2 = errLog pre ++ errLog suf := by
  intro pre suf e bl
  refine ⟨scrape_fst_skip_error pre bl [] e suf, ?_, ?_⟩
  · rw [scrapeLoop, scrape_snd, List.nil_append, errLog_append]
    simp [errLog]
  · rw [scrapeLoop, scrape_snd, List.nil_append, errLog_append]

/-- C9: the exported table has exactly one row per stored record, in stored
order; each row renders the record's fields in the fixed column order, and
empty values are rendered as empty text, never as `"None"` or `"null"`. -/
theorem C9_export_faithful :
    ∀ bl : BusinessList,
      (csvTable bl).length = bl.business_list.length ∧
      csvTable bl =
        bl.business_list.map (fun b => (asdict b).map (fun kv => csvCell kv.2)) ∧
      (∀ b : Business, (asdict b).map Prod.fst =
        ["name", "address", "domain", "website", "phone_number", "category",
         "location", "reviews_count", "reviews_average", "latitude",
         "longitude"]) ∧
      csvCell .vnone = "" ∧ csvCell (.vstr "") = "" ∧
      csvCell .vnone ≠ "None" ∧ csvCell .vnone ≠ "null" := by
  intro bl
  refine ⟨?_, ?_, fun b => rfl, rfl, rfl, by decide, by decide⟩
  · simp [csvTable, BusinessList.dataframe]
  · simp [csvTable, BusinessList.dataframe]

/-- C10: a total-results argument of `0` is falsy, so the effective target
silently becomes the 1,000,000 sentinel — exactly as if no cap had been
passed — and the program proceeds to an effectively unlimited scrape. -/
theorem C10_total_zero_unlimited :
    effectiveTotal (some 0) = 1000000 ∧
    effectiveTotal (some 0) = effectiveTotal none ∧
    mainStart (some "bars in Rome") (some 0) none =
      .launch ["bars in Rome"] 1000000 ∧
    effectiveTotal (some 0) ≠ 0 := by
  refine ⟨rfl, rfl, by decide, by decide⟩

/-- C3 counterexample.  First: the poll sequence 7,7,100,100,… is eventually
stable with 100 results available (and polls never exceed 100), yet with
target N = 10 the loop stops at its second poll with 7 handles, not
min(10, 100) = 10 — "eventually stable" alone does not give min(N, available).
Second: for the claim's own scenario `[5,12,20,20]` with N = 100 the loop
stops at poll index 3 — the fourth poll, where the count first repeats — not
at the third poll (index 2) as claimed; it does return 20 handles. -/
theorem C3_scroll_counterexample :
    (stableFrom (fun i => if i < 2 then 7 else 100) 2 100 ∧
      cappedBy (fun i => if i < 2 then 7 else 100) 100 ∧
      scrollLoop (fun i => if i < 2 then 7 else 100) 10 10 0 0 =
        some (.plateau 1 7) ∧ (7 : Nat) ≠ min 10 100) ∧
    (scrollLoop (fun i => [5, 12, 20, 20].getD i 20) 100 10 0 0 =
      some (.plateau 3 20) ∧ (3 : Nat) ≠ 2) := by
  refine ⟨⟨?_, ?_, by decide, by decide⟩, by decide, by decide⟩
  · intro i hi
    simp [show ¬ i < 2 from by omega]
  · intro i
    by_cases h : i < 2 <;> simp [h]

/-- C3 amended: for every target `N` and every poll sequence that never
exceeds the `v` results available, eventually reports exactly `v`, whose
first repeated count persists forever, and whose first poll is `0` only when
`v = 0`, the loop stops and takes exactly `min N v` listing handles.
Concretely, for polls `[5,12,20,20]` and N = 100 it stops at the fourth poll
(the first repetition of 20) with 20 handles, and for N = 10 at the second
poll with exactly 10 handles. -/
theorem C3_scroll_min_handles :
    (∀ (counts : Nat → Nat) (v k N : Nat),
      cappedBy counts v → stableFrom counts k v → plateauxFinal counts →
      (counts 0 = 0 → v = 0) →
      ∃ e : ScrollExit, scrollLoop counts N (k + 2) 0 0 = some e ∧
        e.handles = min N v) ∧
    scrollLoop (fun i => [5, 12, 20, 20].getD i 20) 100 10 0 0 =
      some (.plateau 3 20) ∧
    scrollLoop (fun i => [5, 12, 20, 20].getD i 20) 10 10 0 0 =
      some (.target 1 10) := by
  refine ⟨?_, by decide, by decide⟩
  intro counts v k N hc hs hp h0
  rcases Nat.lt_or_ge v N with hvN | hNv
  · obtain ⟨i, _, heq⟩ := scroll_plateau_exact counts v k N hc hs hp h0 hvN
      (k + 1) 0 0 (by omega) (by omega) (Or.inl ⟨rfl, rfl⟩)
    refine ⟨.plateau i v, heq, ?_⟩
    simp [ScrollExit.handles]
    omega
  · obtain ⟨i, _, heq⟩ := scroll_target_exact counts v k N hc hs hp h0 hNv
      (k + 1) 0 0 (by omega) (by omega) (Or.inl ⟨rfl, rfl⟩)
    refine ⟨.target i N, heq, ?_⟩
    simp [ScrollExit.handles]
    omega

/-- Witness for C3 (amended): a surface holding 4 results polled against a
target of 9 satisfies all four hypotheses and yields min 9 4 = 4 handles. -/
theorem C3_scroll_min_handles_witness :
    cappedBy (fun _ => 4) 4 ∧ stableFrom (fun _ => 4) 0 4 ∧
    plateauxFinal (fun _ => 4) ∧ ((fun _ => 4) 0 = 0 → 4 = 0) ∧
    (∃ e : ScrollExit, scrollLoop (fun _ => 4) 9 (0 + 2) 0 0 = some e ∧
      e.handles = min 9 4) :=
  ⟨fun _ => le_refl 4, fun _ _ => rfl, fun _ _ _ _ => rfl,
    fun h => absurd h (by decide),
    C3_scroll_min_handles.1 (fun _ => 4) 4 0 9 (fun _ => le_refl 4)
      (fun _ _ => rfl) (fun _ _ _ _ => rfl) (fun h => absurd h (by decide))⟩

/-- C6 counterexample: for the search term `"park in Nice in France"`, which
contains `" in "` twice, the code derives category `"park"` (before the
first `" in "`) and location `"France"` (after the last `" in "`); the
claimed reading — the portion after the (first) `" in "` — would be
`"Nice in France"`, and a last-occurrence reading of the category would be
`"park in Nice"`; neither matches both derived fields. -/
theorem C6_category_location_counterexample :
    deriveCategory "park in Nice in France" = "park" ∧
    deriveLocation "park in Nice in France" = "France" ∧
    ("France" : String) ≠ "Nice in France" ∧
    ("park in Nice" : String) ≠ "park" :=
  ⟨by decide, by decide, by decide, by decide⟩

/-- C6 amended: the category is the piece of the search term before the
first `" in "`, the location the piece after the last `" in "` (the whole
term when `" in "` does not occur), each stripped of surrounding
whitespace; `"bakery in Paris"` yields category `"bakery"` and location
`"Paris"`. -/
theorem C6_category_location :
    (∀ (t : String) (cat : List Char) (rest : List (List Char)),
      pySplit sepIn t.data = cat :: rest → deriveCategory t = ⟨pyStrip cat⟩) ∧
    (∀ (t : String) (front : List (List Char)) (loc : List Char),
      pySplit sepIn t.data = front ++ [loc] → deriveLocation t = ⟨pyStrip loc⟩) ∧
    (∀ t : String, findSplit sepIn t.data = none →
      deriveCategory t = ⟨pyStrip t.data⟩ ∧ deriveLocation t = ⟨pyStrip t.data⟩) ∧
    deriveCategory "bakery in Paris" = "bakery" ∧
    deriveLocation "bakery in Paris" = "Paris" := by
  refine ⟨?_, ?_, ?_, by decide, by decide⟩
  · intro t cat rest h
    rw [deriveCategory, h]
    rfl
  · intro t front loc h
    rw [deriveLocation, h]
    congr 1
    congr 1
    simp
  · intro t h
    rw [deriveCategory, deriveLocation, pySplit_of_none h]
    exact ⟨rfl, rfl⟩

/-- Witness for C6 (amended): the split of `"pizza in Rome"` has head
`"pizza"`, and the category derived through the theorem is `"pizza"`. -/
theorem C6_category_location_witness :
    pySplit sepIn "pizza in Rome".data = ["pizza".data, "Rome".data] ∧
    deriveCategory "pizza in Rome" = ⟨pyStrip "pizza".data⟩ := by
  have h : pySplit sepIn "pizza in Rome".data = ["pizza".data, "Rome".data] := by
    decide
  exact ⟨h, C6_category_location.1 "pizza in Rome" "pizza".data ["Rome".data] h⟩

/-- C8 counterexample: on the no-searches path the program does print the
error and exit before the browser launch, but `sys.exit()` is called with no
argument, so the `SystemExit` carries `None` and the process terminates with
exit status 0 — a success status, not a non-zero-equivalent one. -/
theorem C8_early_exit_counterexample :
    mainStart none none none = .earlyExit noSearchMsg 0 ∧
    mainStart none (some 7) (some []) = .earlyExit noSearchMsg 0 :=
  ⟨rfl, rfl⟩

/-- C8 amended: with no (truthy) search argument and `input.txt` missing or
empty, `main` prints the error and terminates early with exit status 0
(`sys.exit()` with no argument), before any browser resource is opened — it
never reaches the launch state. -/
theorem C8_early_exit :
    ∀ (totalArg : Option Int) (inputLines : Option (List String)),
      (inputLines = none ∨ inputLines = some []) →
      mainStart none totalArg inputLines = .earlyExit noSearchMsg 0 ∧
      (∀ (s : List String) (t : Int),
        mainStart none totalArg inputLines ≠ .launch s t) := by
  rintro totalArg inputLines (rfl | rfl) <;>
    exact ⟨rfl, fun s t h => by simp [mainStart, resolveSearches, pyTruthy] at h⟩

/-- Witness for C8 (amended): the missing-file case at a concrete total. -/
theorem C8_early_exit_witness :
    ((none : Option (List String)) = none ∨
      (none : Option (List String)) = some []) ∧
    mainStart none (some 3) none = .earlyExit noSearchMsg 0 :=
  ⟨Or.inl rfl, (C8_early_exit (some 3) none (Or.inl rfl)).1⟩

/-- C5 counterexample: the URL `"1,2"` contains no `"/@"` segment, yet
`extract_coordinates_from_url` does not raise: `url.split('/@')[-1]` is the
whole URL, whose first `'/'`-free, comma-separated fields `"1"` and `"2"`
parse as floats, so the call silently returns `(1.0, 2.0)`. -/
theorem C5_coords_counterexample :
    hasAtSegment "1,2" = false ∧
    extract_coordinates_from_url "1,2" = some (1, 2) :=
  ⟨by decide, by decide⟩

/-- C5 amended: for every URL whose last `"/@"` is followed by
`lat,lon/...` — comma-free float-parsable `lat` and `lon`, no further
`"/@"`, no `'/'` before the closing slash — the function returns the parsed
pair `(lat, lon)`.  A URL lacking `"/@"` is processed with the whole URL in
place of the text after the last `"/@"`: it raises only when the resulting
first `'/'`-segment does not yield two float-parsable comma fields, e.g.
`"abc"` raises but `"1,2"` silently returns `(1.0, 2.0)`. -/
theorem C5_extract_coordinates :
    (∀ (pre s1 s2 r tail : List Char) (a b : ℚ),
      findSplit ['/', '@'] (s1 ++ [','] ++ s2 ++ r ++ ['/'] ++ tail) = none →
      ',' ∉ s1 → ',' ∉ s2 →
      '/' ∉ s1 ++ [','] ++ s2 ++ r →
      (r = [] ∨ ∃ r2, r = ',' :: r2) →
      parseFloat s1 = some a → parseFloat s2 = some b →
      extract_coordinates_from_url
        ⟨pre ++ ['/', '@'] ++ (s1 ++ [','] ++ s2 ++ r ++ ['/'] ++ tail)⟩ =
        some (a, b)) ∧
    extract_coordinates_from_url "https://g/@12.34,-56.78/d" =
      some (1234 / 100, -(5678 / 100)) ∧
    hasAtSegment "1,2" = false ∧
    extract_coordinates_from_url "1,2" = some (1, 2) ∧
    extract_coordinates_from_url "abc" = none := by
  refine ⟨?_, ?_, by decide, by decide, by decide⟩
  case refine_2 =>
    have h1 : ((12 : ℚ) + 34 / 10 ^ (2 : ℕ)) = 1234 / 100 := by norm_num
    have h2 : (-((56 : ℚ) + 78 / 10 ^ (2 : ℕ))) = -(5678 / 100) := by norm_num
    calc extract_coordinates_from_url "https://g/@12.34,-56.78/d"
        = some ((12 : ℚ) + 34 / 10 ^ (2 : ℕ), -((56 : ℚ) + 78 / 10 ^ (2 : ℕ))) := rfl
      _ = some (1234 / 100, -(5678 / 100)) := by rw [h1, h2]
  intro pre s1 s2 r tail a b h1 h2 h3 h4 h5 h6 h7
  have hdata : (⟨pre ++ ['/', '@'] ++ (s1 ++ [','] ++ s2 ++ r ++ ['/'] ++ tail)⟩ :
      String).data = pre ++ ['/', '@'] ++ (s1 ++ [','] ++ s2 ++ r ++ ['/'] ++ tail) :=
    rfl
  have hlast : (pySplit ['/', '@']
      (pre ++ ['/', '@'] ++ (s1 ++ [','] ++ s2 ++ r ++ ['/'] ++ tail))).getLastD [] =
      s1 ++ [','] ++ s2 ++ r ++ ['/'] ++ tail :=
    pySplit_getLast ['/', '@'] (by simp) overlapFree_slashAt
      (pre ++ ['/', '@'] ++ (s1 ++ [','] ++ s2 ++ r ++ ['/'] ++ tail)).length
      _ pre _ (le_refl _) rfl h1
  have hslash : pySplit ['/'] (s1 ++ [','] ++ s2 ++ r ++ ['/'] ++ tail) =
      (s1 ++ [','] ++ s2 ++ r) :: pySplit ['/'] tail := pySplit_single_cons h4
  have hcomma1 : pySplit [','] (s1 ++ [','] ++ (s2 ++ r)) =
      s1 :: pySplit [','] (s2 ++ r) := pySplit_single_cons h2
  have hsecond : (pySplit [','] (s2 ++ r)).get? 0 = some s2 := by
    rcases h5 with hr | ⟨r2, hr⟩
    · rw [hr, List.append_nil, pySplit_of_none (findSplit_single_none h3)]
      rfl
    · rw [hr, List.append_cons, pySplit_single_cons h3]
      rfl
  simp only [extract_coordinates_from_url, hdata]
  rw [hlast, hslash]
  simp only [List.headD_cons]
  rw [List.append_assoc (s1 ++ [',']) s2 r, hcomma1]
  simp only [List.get?_cons_zero, List.get?_cons_succ]
  rw [hsecond]
  change (match parseFloat s1, parseFloat s2 with
    | some la, some lo => some (la, lo)
    | _, _ => none) = some (a, b)
  rw [h6, h7]

/-- Witness for C5 (amended): a URL whose last `"/@"` is followed by
`"12,-56/"` parses to latitude 12 and longitude -56. -/
theorem C5_extract_coordinates_witness :
    findSplit ['/', '@']
      ("12".data ++ [','] ++ "-56".data ++ [] ++ ['/'] ++ "data".data) = none ∧
    parseFloat "12".data = some 12 ∧
    parseFloat "-56".data = some (-56) ∧
    extract_coordinates_from_url
      ⟨"https://www.google.com/maps/place/X".data ++ ['/', '@'] ++
        ("12".data ++ [','] ++ "-56".data ++ [] ++ ['/'] ++ "data".data)⟩ =
      some (12, -56) := by
  refine ⟨by decide, by decide, by decide, ?_⟩
  exact C5_extract_coordinates.1 "https://www.google.com/maps/place/X".data
    "12".data "-56".data [] "data".data 12 (-56)
    (by decide) (by decide) (by decide) (by decide) (Or.inl rfl)
    (by decide) (by decide)

end GMaps
